import Mathlib

/-!
Tron account addresses (`pkg/address/address.go`)

A shallow embedding of the `address` package.  A Go `[]byte` is a `List Nat`
(every element of a real byte slice is below 256; the theorems that need the
bound say so), a Go `int` is an `Int`, and an operation that can panic at run
time (indexing, slicing, `make`, `bytes.Repeat`) returns `Option`, `none`
being the panic.  The nil slice and the empty slice are both `[]`, except for
`HexToAddress`, whose only sign of failure is a nil result: there the type
`Slice` keeps them apart.
-/

namespace Address

/-! ## Constants -/

/-- The constant `AddressLength = 21`. -/
def AddressLength : Int := 21

/-- The constant `TronBytePrefix = byte(0x41)`. -/
def TronBytePrefix : Nat := 0x41

/-! ## The Go operations the package uses -/

/-- The builtin `len(s)`, a Go `int`. -/
def len (s : List Nat) : Int := (s.length : Int)

/-- The allocation `make([]byte, n, n)`: `n` zero bytes; panics when `n < 0`. -/
def make (n : Int) : Option (List Nat) :=
  if 0 ≤ n then some (List.replicate n.toNat 0) else none

/-- The index expression `s[i]`: panics unless `0 ≤ i < len(s)`. -/
def index (s : List Nat) (i : Int) : Option Nat :=
  if 0 ≤ i ∧ i < len s then s[i.toNat]? else none

/-- The assignment `s[i] = v`: panics unless `0 ≤ i < len(s)`. -/
def setIndex (s : List Nat) (i : Int) (v : Nat) : Option (List Nat) :=
  if 0 ≤ i ∧ i < len s then some (s.set i.toNat v) else none

/-- The slice expression `s[lo:]`: panics unless `0 ≤ lo ≤ len(s)`. -/
def sliceFrom (s : List Nat) (lo : Int) : Option (List Nat) :=
  if 0 ≤ lo ∧ lo ≤ len s then some (s.drop lo.toNat) else none

/-- The builtin `copy(dst, src)`, as the new content of `dst`: the first
`min(len(dst), len(src))` bytes of `src` followed by the untouched rest of
`dst`. -/
def copy (dst src : List Nat) : List Nat :=
  src.take dst.length ++ dst.drop src.length

/-- The statement `copy(s[lo:], src)`, as the new content of `s`: the bytes
before `lo` stay, the slice `s[lo:]` receives the copy. -/
def copyAt (s : List Nat) (lo : Int) (src : List Nat) : Option (List Nat) :=
  (sliceFrom s lo).map (fun tl => s.take lo.toNat ++ copy tl src)

/-! ## `IsValid` -/

/-- The method `Address.IsValid`. -/
def IsValid (a : List Nat) : Option Bool :=
  if len a ≠ AddressLength then some false
  else (index a 0).bind fun a0 =>
    if a0 ≠ TronBytePrefix then some false
    else some true

/-! ## `BytesToAddress` and `EthAddressToAddress` -/

/-- The function `BytesToAddress`. -/
def BytesToAddress (bs : List Nat) : Option (List Nat) :=
  (make AddressLength).bind fun addr =>
    (if len bs > AddressLength then
        (sliceFrom bs (len bs - AddressLength)).bind fun tl => some (copy addr tl)
      else
        copyAt addr (AddressLength - len bs) bs).bind fun addr =>
    setIndex addr 0 TronBytePrefix

/-- The function `EthAddressToAddress`. -/
def EthAddressToAddress (ethAddr : List Nat) : Option (List Nat) :=
  (make AddressLength).bind fun addr =>
    (if len ethAddr > AddressLength - 1 then
        (sliceFrom ethAddr (len ethAddr - (AddressLength - 1))).bind fun tl =>
          copyAt addr 1 tl
      else
        copyAt addr (AddressLength - len ethAddr) ethAddr).bind fun addr =>
    setIndex addr 0 TronBytePrefix

/-! ## `PubkeyToAddress` -/

/-- The function `PubkeyToAddress`.  The derivation `crypto.PubkeyToAddress` of
go-ethereum is the parameter `derive`, giving the bytes of the derived address;
`make([]byte, 0)` is the empty slice and `append` is concatenation. -/
def PubkeyToAddress {K : Type} (derive : K → List Nat) (p : K) : List Nat :=
  let address := derive p
  let addressTron : List Nat := []
  let addressTron := addressTron ++ [TronBytePrefix]
  let addressTron := addressTron ++ address
  addressTron

/-! ## `BigToAddress` -/

/-- The loop behind `natBytes`: the base-256 digits of `n`, pushed in front of
`acc`, least significant first; `fuel` bounds the number of digits. -/
def natBytesAux : Nat → Nat → List Nat → List Nat
  | 0, _, acc => acc
  | fuel + 1, n, acc =>
    if n = 0 then acc else natBytesAux fuel (n / 256) (n % 256 :: acc)

/-- The big-endian bytes of a natural number without leading zero bytes
(`[]` for zero).  A number `n` has at most `n` base-256 digits. -/
def natBytes (n : Nat) : List Nat := natBytesAux n n []

/-- The method `(*big.Int).Bytes` of `math/big`: the big-endian bytes of the
absolute value of `b`. -/
def bigBytes (b : Int) : List Nat := natBytes b.natAbs

/-- The method `(*big.Int).SetBytes` of `math/big`, as the value set: `buf` read
as a big-endian unsigned integer. -/
def setBytes (buf : List Nat) : Nat := buf.foldl (fun acc x => acc * 256 + x) 0

/-- The function `bytes.Repeat(b, count)`: `count` copies of `b`; panics when
`count` is negative. -/
def bytesRepeat (b : List Nat) (count : Int) : Option (List Nat) :=
  if count < 0 then none else some (List.replicate count.toNat b).flatten

/-- The function `BigToAddress`. -/
def BigToAddress (b : Int) : Option (List Nat) :=
  let id := bigBytes b
  (bytesRepeat [0] (AddressLength - len id)).bind fun base =>
    some (base ++ id)

/-! ## `String` and `Base58ToAddress` -/

/-- The method `Address.String`.  The encoder `common.EncodeCheck` is the
parameter `EncodeCheck`; `a.Bytes()` is `a` itself, and `(*big.Int).String` of
a non-negative integer is its decimal rendering. -/
def AddressString (EncodeCheck : List Nat → String) (a : List Nat) : Option String :=
  if len a = 0 then some ""
  else (index a 0).bind fun a0 =>
    if a0 = 0 then some (Nat.repr (setBytes a))
    else some (EncodeCheck a)

/-- The function `Base58ToAddress`.  The decoder `common.DecodeCheck` is the
parameter `DecodeCheck`, returning the Go pair of bytes and error (`none` is
the nil error); the nil address is `[]`. -/
def Base58ToAddress {ε : Type} (DecodeCheck : String → List Nat × Option ε) (s : String) :
    List Nat × Option ε :=
  match DecodeCheck s with
  | (addr, err) =>
    if err.isSome then ([], err)
    else (addr, none)

/-! ## `Hex` and `HexToAddress` -/

/-- A value of a Go slice type where being nil matters: the nil slice, or a
slice that holds the bytes `d`. -/
inductive Slice where
  | nil : Slice
  | bytes (d : List Nat) : Slice
  deriving DecidableEq

/-- The method `Address.Hex`.  The encoder `common.BytesToHexString` is the
parameter `bytesToHexString`; `a[:]` is `a` itself. -/
def Hex (bytesToHexString : List Nat → String) (a : List Nat) : String :=
  bytesToHexString a

/-- The function `HexToAddress`.  The decoder `common.FromHex` is the parameter
`fromHex`, returning the Go pair of a slice and an error (`none` is the nil
error). -/
def HexToAddress {ε : Type} (fromHex : String → Slice × Option ε) (s : String) : Slice :=
  match fromHex s with
  | (addr, err) =>
    if err.isSome then Slice.nil
    else addr

/-- One hexadecimal digit, lower case, of a value below 16. -/
def hexDigit (n : Nat) : Char :=
  ['0', '1', '2', '3', '4', '5', '6', '7', '8', '9', 'a', 'b', 'c', 'd', 'e', 'f'].getD n '0'

/-- The value of a hexadecimal digit in either case; `none` for any other
character. -/
def hexVal (c : Char) : Option Nat :=
  if '0' ≤ c ∧ c ≤ '9' then some (c.toNat - '0'.toNat)
  else if 'a' ≤ c ∧ c ≤ 'f' then some (c.toNat - 'a'.toNat + 10)
  else if 'A' ≤ c ∧ c ≤ 'F' then some (c.toNat - 'A'.toNat + 10)
  else none

/-- The two hexadecimal digits of every byte, in order. -/
def hexEncode : List Nat → List Char
  | [] => []
  | b :: bs => hexDigit (b / 16) :: hexDigit (b % 16) :: hexEncode bs

/-- The bytes written by pairs of hexadecimal digits; `none` when a character is
not a hexadecimal digit or a digit is left over. -/
def hexDecode : List Char → Option (List Nat)
  | [] => some []
  | [_] => none
  | hi :: lo :: rest =>
    (hexVal hi).bind fun h =>
      (hexVal lo).bind fun l =>
        (hexDecode rest).bind fun tl => some ((h * 16 + l) :: tl)

/-- Modelled from the spec: the helper `common.BytesToHexString`, which is not
among the sources; it renders the full byte content as hexadecimal text behind
the prefix `0x`. -/
def BytesToHexString (bytes : List Nat) : String :=
  String.mk ('0' :: 'x' :: hexEncode bytes)

/-- Modelled from the spec: the helper `common.FromHex`, which is not among the
sources; it strips an optional prefix `0x`, pads a text of odd length with
a `0` on the left and decodes the hexadecimal digits; on malformed text it
returns no bytes and an error. -/
def FromHex (s : String) : Slice × Option Unit :=
  let body := match s.data with
    | '0' :: 'x' :: rest => rest
    | cs => cs
  let body := if body.length % 2 = 1 then '0' :: body else body
  match hexDecode body with
  | some d => (Slice.bytes d, none)
  | none => (Slice.nil, some ())

/-! ## `Base64ToAddress` -/

/-- The function `Base64ToAddress`.  The decoder
`base64.StdEncoding.DecodeString` of the Go library is the parameter
`decodeString`, returning the Go pair of bytes and error; the nil address is
`[]`, and the conversion `Address(decoded)` keeps the bytes. -/
def Base64ToAddress {ε : Type} (decodeString : String → List Nat × Option ε) (s : String) :
    List Nat × Option ε :=
  match decodeString s with
  | (decoded, err) =>
    if err.isSome then ([], err)
    else (decoded, none)

/-! ## `Scan` and `Value` -/

/-- A value of type `interface{}` as `Scan` receives it: a `[]byte`, or a value
of any other dynamic type (the nil interface included), with the type name
that `%T` prints. -/
inductive Src where
  | buffer (b : List Nat) : Src
  | other (typeName : String) : Src
  deriving DecidableEq

/-- The two errors of `Scan`, by the arguments of their `fmt.Errorf` message:
"can't scan %T into Address" and "can't scan []byte of len %d into Address,
want %d". -/
inductive ScanError where
  | wrongType (typeName : String) : ScanError
  | wrongLength (got want : Int) : ScanError
  deriving DecidableEq

/-- The method `(*Address).Scan`: from the content of the receiver and `src`
to the content of the receiver after the call and the error returned. -/
def Scan (a : List Nat) (src : Src) : List Nat × Option ScanError :=
  match src with
  | Src.other typeName => (a, some (ScanError.wrongType typeName))
  | Src.buffer srcB =>
    if len srcB ≠ AddressLength then
      (a, some (ScanError.wrongLength (len srcB) AddressLength))
    else (srcB, none)

/-- The method `Address.Value`: the byte buffer `[]byte(a)` and a nil error. -/
def Value {ε : Type} (a : List Nat) : List Nat × Option ε :=
  (a, none)

/-! ## Auxiliary definitions -/

/-- The last 20 bytes of `bs`, left-padded with zero bytes to 20 bytes. -/
def rightAlign20 (bs : List Nat) : List Nat :=
  List.replicate (20 - bs.length) 0 ++ bs.drop (bs.length - 20)

/-- An encoder for the examples: one character per byte. -/
def charEncode (x : List Nat) : String := String.mk (x.map Char.ofNat)

/-- The decoder of `charEncode`; it never fails. -/
def charDecode (s : String) : List Nat × Option Unit := (s.data.map Char.toNat, none)

/-! ## Closed forms -/

theorem make_AddressLength : make AddressLength = some (List.replicate 21 0) := rfl

theorem sliceFrom_of_le (s : List Nat) (k : Nat) (h : k ≤ s.length) :
    sliceFrom s (k : Int) = some (s.drop k) := by
  have h2 : (0 : Int) ≤ (k : Int) ∧ (k : Int) ≤ len s := by
    unfold len; omega
  simp [sliceFrom, h2]

theorem copyAt_of_le (s : List Nat) (k : Nat) (src : List Nat) (h : k ≤ s.length) :
    copyAt s (k : Int) src
      = some (s.take k ++ (src.take (s.length - k) ++ s.drop (k + src.length))) := by
  simp [copyAt, sliceFrom_of_le s k h, copy, Nat.add_comm]

theorem setIndex_zero_cons (x : Nat) (xs : List Nat) (v : Nat) :
    setIndex (x :: xs) 0 v = some (v :: xs) := by
  have h2 : (0 : Int) < len (x :: xs) := by
    unfold len; simp
  simp [setIndex, h2]

theorem drop_pred_cons (bs : List Nat) (k : Nat) (h : k < bs.length) :
    ∃ x, bs.drop k = x :: bs.drop (k + 1) :=
  ⟨bs[k], List.drop_eq_getElem_cons h⟩

theorem BytesToAddress_eq (bs : List Nat) :
    BytesToAddress bs = some (TronBytePrefix :: rightAlign20 bs) := by
  unfold BytesToAddress
  rw [make_AddressLength]
  simp only [Option.some_bind, Option.bind_eq_bind]
  by_cases hlen : len bs > AddressLength
  · have hn : 21 < bs.length := by
      unfold len AddressLength at hlen; omega
    rw [if_pos hlen]
    have e1 : len bs - AddressLength = ((bs.length - 21 : Nat) : Int) := by
      unfold len AddressLength; omega
    rw [e1, sliceFrom_of_le bs _ (by omega)]
    simp only [Option.some_bind]
    obtain ⟨x, hx⟩ := drop_pred_cons bs (bs.length - 21) (by omega)
    have e2 : bs.length - 21 + 1 = bs.length - 20 := by omega
    have e3 : 20 - bs.length = 0 := by omega
    have hl : (bs.drop (bs.length - 20)).length = 20 := by simp; omega
    rw [e2] at hx
    rw [hx]
    simp only [rightAlign20, e3, copy, Option.some_bind]
    generalize List.drop (bs.length - 20) bs = tl at hl
    simp [setIndex_zero_cons, hl]
  · have hn : bs.length ≤ 21 := by
      unfold len AddressLength at hlen; omega
    rw [if_neg hlen]
    have e1 : AddressLength - len bs = ((21 - bs.length : Nat) : Int) := by
      unfold len AddressLength; omega
    rw [e1, copyAt_of_le _ _ _ (by simp)]
    simp only [Option.some_bind, List.length_replicate]
    have e2 : 21 - (21 - bs.length) = bs.length := by omega
    have e3 : 21 - bs.length + bs.length = 21 := by omega
    rw [e2, e3, List.take_of_length_le (Nat.le_refl _), List.drop_of_length_le (by simp)]
    simp only [List.take_replicate, List.append_nil]
    by_cases h21 : bs.length = 21
    · cases bs with
      | nil => simp at h21
      | cons b tl =>
        simp at h21
        simp [h21, setIndex_zero_cons, rightAlign20]
    · have e4 : min (21 - bs.length) 21 = (20 - bs.length) + 1 := by omega
      have e5 : bs.length - 20 = 0 := by omega
      rw [e4, List.replicate_succ]
      simp [setIndex_zero_cons, rightAlign20, e5]

theorem EthAddressToAddress_eq (e : List Nat) :
    EthAddressToAddress e = some (TronBytePrefix :: rightAlign20 e) := by
  unfold EthAddressToAddress
  rw [make_AddressLength]
  simp only [Option.some_bind, Option.bind_eq_bind]
  by_cases hlen : len e > AddressLength - 1
  · have hn : 20 < e.length := by
      unfold len AddressLength at hlen; omega
    rw [if_pos hlen]
    have e1 : len e - (AddressLength - 1) = ((e.length - 20 : Nat) : Int) := by
      unfold len AddressLength; omega
    rw [e1, sliceFrom_of_le e _ (by omega)]
    simp only [Option.some_bind]
    have e3 : 20 - e.length = 0 := by omega
    have hl : (e.drop (e.length - 20)).length = 20 := by simp; omega
    have hc := copyAt_of_le (List.replicate 21 0) 1 (List.drop (e.length - 20) e)
      (by simp)
    simp only [Nat.cast_one] at hc
    rw [hc]
    simp only [rightAlign20, e3]
    generalize List.drop (e.length - 20) e = tl at hl
    simp [List.replicate_succ, setIndex_zero_cons, hl]
  · have hn : e.length ≤ 20 := by
      unfold len AddressLength at hlen; omega
    rw [if_neg hlen]
    have e1 : AddressLength - len e = ((21 - e.length : Nat) : Int) := by
      unfold len AddressLength; omega
    rw [e1, copyAt_of_le _ _ _ (by simp)]
    simp only [Option.some_bind, List.length_replicate]
    have e2 : 21 - (21 - e.length) = e.length := by omega
    have e3 : 21 - e.length + e.length = 21 := by omega
    rw [e2, e3, List.take_of_length_le (Nat.le_refl _), List.drop_of_length_le (by simp)]
    simp only [List.take_replicate, List.append_nil]
    have e4 : min (21 - e.length) 21 = (20 - e.length) + 1 := by omega
    have e5 : e.length - 20 = 0 := by omega
    rw [e4, List.replicate_succ]
    simp [setIndex_zero_cons, rightAlign20, e5]

theorem length_rightAlign20 (bs : List Nat) : (rightAlign20 bs).length = 20 := by
  simp [rightAlign20]; omega

/-- Byte `i + 1` of a shaped address, read off the input: the input byte at
`len(bs) - 21 + (i + 1)` when that index is not negative, a zero byte otherwise. -/
theorem getElem?_rightAlign20 (bs : List Nat) (i : Nat) (hi : i < 20) :
    (rightAlign20 bs)[i]? =
      some (if 20 ≤ bs.length + i then bs.getD (bs.length + i - 20) 0 else 0) := by
  unfold rightAlign20
  by_cases h : 20 ≤ bs.length + i
  · rw [if_pos h, List.getElem?_append_right (by simp; omega)]
    have hlt : bs.length + i - 20 < bs.length := by omega
    simp only [List.length_replicate, List.getElem?_drop, List.getD_eq_getElem?_getD]
    have e : bs.length - 20 + (i - (20 - bs.length)) = bs.length + i - 20 := by omega
    rw [e, List.getElem?_eq_getElem hlt]
    simp
  · rw [if_neg h, List.getElem?_append_left (by simp; omega)]
    simp [List.getElem?_replicate]; omega

theorem IsValid_cons (x : Nat) (xs : List Nat) (h : xs.length = 20) :
    IsValid (x :: xs) = some (decide (x = TronBytePrefix)) := by
  have h1 : len (x :: xs) = AddressLength := by
    unfold len AddressLength; simp [h]
  have h2 : index (x :: xs) 0 = some x := by
    simp [index, h1, AddressLength]
  simp only [IsValid, h1, h2, ne_eq, not_true_eq_false, if_false, Option.some_bind]
  by_cases hx : x = TronBytePrefix <;> simp [hx]

/-! ## Big-endian bytes -/

theorem foldl_setBytes (l : List Nat) (acc : Nat) :
    l.foldl (fun a x => a * 256 + x) acc = acc * 256 ^ l.length + setBytes l := by
  induction l generalizing acc with
  | nil => simp [setBytes]
  | cons x xs ih =>
    simp only [List.foldl_cons, List.length_cons, setBytes]
    rw [ih (acc * 256 + x), ih (0 * 256 + x)]
    ring

theorem setBytes_cons (x : Nat) (l : List Nat) :
    setBytes (x :: l) = x * 256 ^ l.length + setBytes l := by
  simp only [setBytes, List.foldl_cons]
  rw [foldl_setBytes l (0 * 256 + x)]
  simp [setBytes]

theorem setBytes_lt (l : List Nat) (h : ∀ x ∈ l, x < 256) : setBytes l < 256 ^ l.length := by
  induction l with
  | nil => simp [setBytes]
  | cons x xs ih =>
    rw [setBytes_cons, List.length_cons, pow_succ]
    have hx : x < 256 := h x (by simp)
    have hxs := ih (fun y hy => h y (by simp [hy]))
    nlinarith

/-- The value `setBytes` computes is the big-endian one: byte `i` of `l` has the
weight `256 ^ (len(l) - 1 - i)`. -/
theorem setBytes_eq_sum (l : List Nat) :
    setBytes l = ∑ i in Finset.range l.length, l.getD i 0 * 256 ^ (l.length - 1 - i) := by
  induction l with
  | nil => simp [setBytes]
  | cons x xs ih =>
    rw [setBytes_cons, List.length_cons, Finset.sum_range_succ', ih]
    have e : ∀ i ∈ Finset.range xs.length,
        (x :: xs).getD (i + 1) 0 * 256 ^ (xs.length + 1 - 1 - (i + 1))
          = xs.getD i 0 * 256 ^ (xs.length - 1 - i) := by
      intro i _
      have e1 : xs.length + 1 - 1 - (i + 1) = xs.length - 1 - i := by omega
      rw [e1]
      simp
    rw [Finset.sum_congr rfl e]
    simp [Nat.add_comm]

theorem setBytes_eq_ofDigits (l : List Nat) : setBytes l = Nat.ofDigits 256 l.reverse := by
  induction l with
  | nil => simp [setBytes]
  | cons x xs ih =>
    rw [setBytes_cons, List.reverse_cons, Nat.ofDigits_append, Nat.ofDigits_singleton,
      List.length_reverse, ← ih]
    ring

theorem setBytes_replicate_zero_append (k : Nat) (l : List Nat) :
    setBytes (List.replicate k 0 ++ l) = setBytes l := by
  induction k with
  | zero => simp
  | succ k ih =>
    rw [List.replicate_succ, List.cons_append, setBytes_cons, ih]
    simp

theorem setBytes_natBytesAux (fuel : Nat) :
    ∀ (n : Nat) (acc : List Nat), n ≤ fuel →
      setBytes (natBytesAux fuel n acc) = n * 256 ^ acc.length + setBytes acc := by
  induction fuel with
  | zero =>
    intro n acc h
    have : n = 0 := by omega
    simp [natBytesAux, this]
  | succ fuel ih =>
    intro n acc h
    by_cases hn : n = 0
    · simp [natBytesAux, hn]
    · have hdiv : n / 256 ≤ fuel := by
        have := Nat.div_lt_self (Nat.pos_of_ne_zero hn) (by norm_num : 1 < 256)
        omega
      simp only [natBytesAux, hn, if_false]
      rw [ih _ _ hdiv, setBytes_cons, List.length_cons, pow_succ]
      have hdm := Nat.div_add_mod n 256
      generalize n / 256 = q at hdm ⊢
      generalize n % 256 = r at hdm ⊢
      rw [← hdm]
      ring

theorem natBytesAux_lt (fuel : Nat) :
    ∀ (n : Nat) (acc : List Nat), (∀ x ∈ acc, x < 256) →
      ∀ x ∈ natBytesAux fuel n acc, x < 256 := by
  induction fuel with
  | zero => intro n acc h; simpa [natBytesAux] using h
  | succ fuel ih =>
    intro n acc h
    by_cases hn : n = 0
    · simpa [natBytesAux, hn] using h
    · simp only [natBytesAux, hn, if_false]
      apply ih
      intro x hx
      rcases List.mem_cons.mp hx with rfl | hx
      · exact Nat.mod_lt _ (by norm_num)
      · exact h x hx

theorem natBytesAux_length_le (fuel : Nat) :
    ∀ (n k : Nat) (acc : List Nat), n ≤ fuel → n < 256 ^ k →
      (natBytesAux fuel n acc).length ≤ k + acc.length := by
  induction fuel with
  | zero => intro n k acc _ _; simp [natBytesAux]
  | succ fuel ih =>
    intro n k acc h hk
    by_cases hn : n = 0
    · simp [natBytesAux, hn]
    · have hdiv : n / 256 ≤ fuel := by
        have := Nat.div_lt_self (Nat.pos_of_ne_zero hn) (by norm_num : 1 < 256)
        omega
      simp only [natBytesAux, hn, if_false]
      cases k with
      | zero => simp at hk; omega
      | succ k =>
        have h2 : n / 256 < 256 ^ k := by
          rw [Nat.div_lt_iff_lt_mul (by norm_num)]
          rwa [pow_succ] at hk
        have := ih (n / 256) k (n % 256 :: acc) hdiv h2
        simp only [List.length_cons] at this
        omega

theorem length_le_natBytesAux (fuel : Nat) :
    ∀ (n : Nat) (acc : List Nat), acc.length ≤ (natBytesAux fuel n acc).length := by
  induction fuel with
  | zero => intro n acc; simp [natBytesAux]
  | succ fuel ih =>
    intro n acc
    by_cases hn : n = 0
    · simp [natBytesAux, hn]
    · simp only [natBytesAux, hn, if_false]
      have := ih (n / 256) (n % 256 :: acc)
      simp only [List.length_cons] at this
      omega

theorem natBytesAux_length_gt (fuel : Nat) :
    ∀ (n k : Nat) (acc : List Nat), n ≤ fuel → 256 ^ k ≤ n →
      k + acc.length < (natBytesAux fuel n acc).length := by
  induction fuel with
  | zero =>
    intro n k acc h hk
    have : 0 < 256 ^ k := by positivity
    omega
  | succ fuel ih =>
    intro n k acc h hk
    have hpos : 0 < 256 ^ k := by positivity
    have hn : n ≠ 0 := by omega
    have hdiv : n / 256 ≤ fuel := by
      have := Nat.div_lt_self (Nat.pos_of_ne_zero hn) (by norm_num : 1 < 256)
      omega
    simp only [natBytesAux, hn, if_false]
    cases k with
    | zero =>
      have : (n % 256 :: acc).length ≤ (natBytesAux fuel (n / 256) (n % 256 :: acc)).length := by
        exact length_le_natBytesAux fuel _ _
      simp only [List.length_cons] at this
      omega
    | succ k =>
      have h2 : 256 ^ k ≤ n / 256 := by
        rw [Nat.le_div_iff_mul_le (by norm_num)]
        rwa [pow_succ] at hk
      have := ih (n / 256) k (n % 256 :: acc) hdiv h2
      simp only [List.length_cons] at this
      omega

theorem setBytes_natBytes (n : Nat) : setBytes (natBytes n) = n := by
  have h := setBytes_natBytesAux n n [] (Nat.le_refl n)
  simpa [natBytes, setBytes] using h

theorem natBytes_lt (n : Nat) : ∀ x ∈ natBytes n, x < 256 :=
  natBytesAux_lt n n [] (by simp)

theorem natBytes_length_le (n k : Nat) (h : n < 256 ^ k) : (natBytes n).length ≤ k := by
  simpa [natBytes] using natBytesAux_length_le n n k [] (Nat.le_refl n) h

theorem natBytes_length_gt (n k : Nat) (h : 256 ^ k ≤ n) : k < (natBytes n).length := by
  simpa [natBytes] using natBytesAux_length_gt n n k [] (Nat.le_refl n) h

theorem bytesRepeat_zero (k : Nat) :
    bytesRepeat [0] (k : Int) = some (List.replicate k 0) := by
  have h : ¬ (k : Int) < 0 := by omega
  have e : ∀ m : Nat, (List.replicate m [0]).flatten = List.replicate m 0 := by
    intro m
    induction m with
    | zero => rfl
    | succ m ih => simp [List.replicate_succ, ih]
  simp [bytesRepeat, h, e]

theorem BigToAddress_eq (b : Int) (h : b.natAbs < 256 ^ 21) :
    BigToAddress b
      = some (List.replicate (21 - (bigBytes b).length) 0 ++ bigBytes b) := by
  have hl : (bigBytes b).length ≤ 21 := natBytes_length_le _ 21 h
  have e1 : AddressLength - len (bigBytes b) = ((21 - (bigBytes b).length : Nat) : Int) := by
    unfold len AddressLength; omega
  simp only [BigToAddress, e1, bytesRepeat_zero, Option.some_bind]

/-- Beyond 21 bytes the count passed to `bytes.Repeat` is negative and
`BigToAddress` panics. -/
theorem BigToAddress_eq_none (b : Int) (h : 256 ^ 21 ≤ b.natAbs) : BigToAddress b = none := by
  have hl : 21 < (bigBytes b).length := natBytes_length_gt _ 21 h
  have e1 : AddressLength - len (bigBytes b) < 0 := by
    unfold len AddressLength; omega
  simp [BigToAddress, bytesRepeat, e1]

theorem index_zero_cons (x : Nat) (xs : List Nat) : index (x :: xs) 0 = some x := by
  have h : (0 : Int) < len (x :: xs) := by
    unfold len; simp
  simp [index, h]

theorem len_cons_ne_zero (x : Nat) (xs : List Nat) : len (x :: xs) ≠ 0 := by
  unfold len; simp; omega

theorem AddressString_cons (E : List Nat → String) (x : Nat) (xs : List Nat) :
    AddressString E (x :: xs)
      = some (if x = 0 then Nat.repr (setBytes (x :: xs)) else E (x :: xs)) := by
  simp only [AddressString, len_cons_ne_zero, if_false, index_zero_cons, Option.some_bind]
  by_cases hx : x = 0 <;> simp [hx]

set_option maxRecDepth 100000 in
theorem toNat_ofNat_byte : ∀ y : Nat, y < 256 → (Char.ofNat y).toNat = y := by
  decide

theorem charDecode_charEncode (x : List Nat) (h : ∀ y ∈ x, y < 256) :
    charDecode (charEncode x) = (x, none) := by
  simp only [charDecode, charEncode, List.map_map, Prod.mk.injEq, and_true]
  induction x with
  | nil => rfl
  | cons y ys ih =>
    simp only [List.map_cons, Function.comp_apply, List.cons.injEq]
    exact ⟨toNat_ofNat_byte y (h y (by simp)), ih (fun z hz => h z (by simp [hz]))⟩

/-! ## Hexadecimal text -/

theorem hexVal_hexDigit : ∀ n : Nat, n < 16 → hexVal (hexDigit n) = some n := by
  decide

theorem hexDecode_hexEncode (bs : List Nat) (h : ∀ b ∈ bs, b < 256) :
    hexDecode (hexEncode bs) = some bs := by
  induction bs with
  | nil => rfl
  | cons b tl ih =>
    have hb : b < 256 := h b (by simp)
    have h1 : hexVal (hexDigit (b / 16)) = some (b / 16) := hexVal_hexDigit _ (by omega)
    have h2 : hexVal (hexDigit (b % 16)) = some (b % 16) := hexVal_hexDigit _ (by omega)
    have e : b / 16 * 16 + b % 16 = b := by omega
    simp only [hexEncode, hexDecode, h1, h2, ih (fun c hc => h c (by simp [hc])),
      Option.some_bind, e]

theorem length_hexEncode (bs : List Nat) : (hexEncode bs).length = 2 * bs.length := by
  induction bs with
  | nil => rfl
  | cons b tl ih => simp only [hexEncode, List.length_cons, ih]; omega

theorem FromHex_BytesToHexString (bs : List Nat) (h : ∀ b ∈ bs, b < 256) :
    FromHex (BytesToHexString bs) = (Slice.bytes bs, none) := by
  have hpar : ¬ (hexEncode bs).length % 2 = 1 := by
    rw [length_hexEncode]; omega
  simp only [FromHex, BytesToHexString, hpar, if_false, hexDecode_hexEncode bs h]

theorem FromHex_cases (s : String) :
    (∃ d, FromHex s = (Slice.bytes d, none)) ∨ FromHex s = (Slice.nil, some ()) := by
  unfold FromHex
  dsimp only
  generalize hexDecode _ = r
  cases r with
  | some d => exact Or.inl ⟨d, rfl⟩
  | none => exact Or.inr rfl

/-! ## `Scan` -/

theorem Scan_buffer (a b : List Nat) :
    Scan a (Src.buffer b)
      = if b.length = 21 then (b, none)
        else (a, some (ScanError.wrongLength (b.length : Int) 21)) := by
  by_cases h : b.length = 21
  · have h1 : len b = AddressLength := by
      unfold len AddressLength; omega
    simp [Scan, h1, h]
  · have h1 : len b ≠ AddressLength := by
      unfold len AddressLength; omega
    simp [Scan, h1, h, len, AddressLength]
    omega

/-! ## Valid addresses -/

theorem IsValid_eq_true (a : List Nat) (h : IsValid a = some true) :
    ∃ xs, a = TronBytePrefix :: xs ∧ xs.length = 20 := by
  by_cases hl : a.length = 21
  · cases a with
    | nil => simp at hl
    | cons x xs =>
      have hxs : xs.length = 20 := by simpa using hl
      rw [IsValid_cons x xs hxs] at h
      have hx : x = TronBytePrefix := by simpa using h
      exact ⟨xs, by rw [hx], hxs⟩
  · have h1 : len a ≠ AddressLength := by
      unfold len AddressLength; omega
    simp [IsValid, h1] at h

theorem rightAlign20_cons (x : Nat) (xs : List Nat) (h : xs.length = 20) :
    rightAlign20 (x :: xs) = xs := by
  simp [rightAlign20, h]

/-! ## The claims -/

/-- C1: `IsValid` never panics, and it answers true exactly for the addresses
of length 21 whose byte 0 is `TronBytePrefix`; so it answers false for every
other length and for every 21-byte value with another first byte. -/
theorem IsValid_iff (a : List Nat) :
    IsValid a = some (decide (a.length = 21 ∧ a[0]? = some TronBytePrefix)) := by
  by_cases h : a.length = 21
  · cases a with
    | nil => simp at h
    | cons x xs =>
      have hxs : xs.length = 20 := by simpa using h
      rw [IsValid_cons x xs hxs]
      simp [hxs]
  · have h1 : len a ≠ AddressLength := by
      unfold len AddressLength; omega
    simp [IsValid, h1, h]

/-- C2: `BytesToAddress` never panics; its result has 21 bytes, byte 0 is the
prefix, and byte `i` for `1 ≤ i ≤ 20` is `bs[len(bs) - 21 + i]` when that index
is not negative and zero otherwise; `[0x11, 0x22]` gives the prefix, eighteen
zero bytes, `0x11`, `0x22`. -/
theorem BytesToAddress_bytes :
    (∀ bs : List Nat, ∃ r, BytesToAddress bs = some r ∧ r.length = 21 ∧
      r[0]? = some TronBytePrefix ∧
      ∀ i : Nat, 1 ≤ i → i ≤ 20 →
        r[i]? = if 0 ≤ len bs - 21 + (i : Int) then bs[(len bs - 21 + (i : Int)).toNat]?
                else some 0) ∧
    BytesToAddress [0x11, 0x22] =
      some [0x41, 0, 0, 0, 0, 0, 0, 0, 0, 0, 0, 0, 0, 0, 0, 0, 0, 0, 0, 0x11, 0x22] := by
  refine ⟨fun bs => ⟨_, BytesToAddress_eq bs, ?_, ?_, ?_⟩, by decide⟩
  · simp [length_rightAlign20]
  · simp
  · intro i h1 h20
    obtain ⟨j, rfl⟩ : ∃ j, i = j + 1 := ⟨i - 1, by omega⟩
    rw [List.getElem?_cons_succ, getElem?_rightAlign20 bs j (by omega)]
    unfold len
    by_cases h : 20 ≤ bs.length + j
    · have h2 : (0 : Int) ≤ (bs.length : Int) - 21 + ((j + 1 : Nat) : Int) := by omega
      have h3 : ((bs.length : Int) - 21 + ((j + 1 : Nat) : Int)).toNat = bs.length + j - 20 := by
        omega
      have hlt : bs.length + j - 20 < bs.length := by omega
      rw [if_pos h, if_pos h2, h3, List.getElem?_eq_getElem hlt,
        List.getD_eq_getElem _ _ hlt]
    · have h2 : ¬ (0 : Int) ≤ (bs.length : Int) - 21 + ((j + 1 : Nat) : Int) := by omega
      rw [if_neg h, if_neg h2]

/-- C3, as stated, fails on a 21-byte input whose first byte is not the
prefix: the 21 bytes `0x99, 0, …, 0` satisfy `0 < len(bs) ≤ 21`, and the bytes of
the result at positions `21 - 21 .. 21` are `0x41, 0, …, 0`, not `bs`. -/
theorem BytesToAddress_full_length_counterexample :
    0 < (0x99 :: List.replicate 20 0).length ∧ (0x99 :: List.replicate 20 0).length ≤ 21 ∧
    BytesToAddress (0x99 :: List.replicate 20 0) = some (0x41 :: List.replicate 20 0) ∧
    (0x41 :: List.replicate 20 0).drop (21 - (0x99 :: List.replicate 20 0).length)
      ≠ 0x99 :: List.replicate 20 0 := by
  decide

/-- C3, amended: for `0 < len(bs) ≤ 21` the result has 21 bytes, byte 0 is the
prefix, and every position of `21 - len(bs) .. 21` other than position 0 holds
the corresponding byte of `bs`; hence the whole of `bs` is found there when
`len(bs) ≤ 20`, and also when `len(bs) = 21` and `bs[0]` is the prefix. -/
theorem BytesToAddress_short_input (bs : List Nat) (h0 : 0 < bs.length)
    (h21 : bs.length ≤ 21) :
    ∃ r, BytesToAddress bs = some r ∧ r.length = 21 ∧ r[0]? = some TronBytePrefix ∧
      (∀ j : Nat, j < bs.length → 21 - bs.length + j ≠ 0 →
        r[21 - bs.length + j]? = bs[j]?) ∧
      (bs.length ≤ 20 → r.drop (21 - bs.length) = bs) ∧
      (bs[0]? = some TronBytePrefix → r.drop (21 - bs.length) = bs) := by
  refine ⟨_, BytesToAddress_eq bs, ?_, ?_, ?_, ?_, ?_⟩
  · simp [length_rightAlign20]
  · simp
  · intro j hj hne
    obtain ⟨k, hk⟩ : ∃ k, 21 - bs.length + j = k + 1 := ⟨21 - bs.length + j - 1, by omega⟩
    rw [hk, List.getElem?_cons_succ, getElem?_rightAlign20 bs k (by omega)]
    have h : 20 ≤ bs.length + k := by omega
    have e : bs.length + k - 20 = j := by omega
    rw [if_pos h, e, List.getElem?_eq_getElem hj, List.getD_eq_getElem _ _ hj]
  · intro h20
    have e1 : 21 - bs.length = (20 - bs.length) + 1 := by omega
    have e2 : bs.length - 20 = 0 := by omega
    rw [e1, List.drop_succ_cons]
    simp [rightAlign20, e2]
  · intro hp
    by_cases h20 : bs.length ≤ 20
    · have e1 : 21 - bs.length = (20 - bs.length) + 1 := by omega
      have e2 : bs.length - 20 = 0 := by omega
      rw [e1, List.drop_succ_cons]
      simp [rightAlign20, e2]
    · have e : bs.length = 21 := by omega
      cases bs with
      | nil => simp at h0
      | cons b tl =>
        have htl : tl.length = 20 := by simpa using e
        simp at hp
        simp [rightAlign20, htl, hp]

/-- C3 at the two-byte input `[0x11, 0x22]`. -/
theorem BytesToAddress_short_input_witness :
    ∃ r, BytesToAddress [0x11, 0x22] = some r ∧ r.length = 21 ∧
      r[0]? = some TronBytePrefix ∧
      (∀ j : Nat, j < [0x11, 0x22].length → 21 - [0x11, 0x22].length + j ≠ 0 →
        r[21 - [0x11, 0x22].length + j]? = [0x11, 0x22][j]?) ∧
      ([0x11, 0x22].length ≤ 20 → r.drop (21 - [0x11, 0x22].length) = [0x11, 0x22]) ∧
      ([0x11, 0x22][0]? = some TronBytePrefix →
        r.drop (21 - [0x11, 0x22].length) = [0x11, 0x22]) :=
  BytesToAddress_short_input [0x11, 0x22] (by decide) (by decide)

/-- C4: for an input of more than 21 bytes, `BytesToAddress(bs)` returns what
`BytesToAddress(bs[len(bs)-21:])` returns; the slice expression does not
panic and both calls return. -/
theorem BytesToAddress_long_input (bs : List Nat) (h : 21 < bs.length) :
    ∃ tl r, sliceFrom bs (len bs - 21) = some tl ∧ BytesToAddress tl = some r ∧
      BytesToAddress bs = some r := by
  have e1 : len bs - 21 = ((bs.length - 21 : Nat) : Int) := by
    unfold len; omega
  refine ⟨bs.drop (bs.length - 21), _, ?_, ?_, BytesToAddress_eq bs⟩
  · rw [e1]
    exact sliceFrom_of_le bs _ (by omega)
  · rw [BytesToAddress_eq]
    have hl : (bs.drop (bs.length - 21)).length = 21 := by simp; omega
    have e2 : bs.length - 21 + 1 = bs.length - 20 := by omega
    have e3 : 20 - bs.length = 0 := by omega
    simp [rightAlign20, hl, e2, e3]

/-- C4 at the 23-byte input `1, 2, …, 23`. -/
theorem BytesToAddress_long_input_witness :
    ∃ tl r, sliceFrom (List.range' 1 23) (len (List.range' 1 23) - 21) = some tl ∧
      BytesToAddress tl = some r ∧ BytesToAddress (List.range' 1 23) = some r :=
  BytesToAddress_long_input (List.range' 1 23) (by decide)

/-- C5: `EthAddressToAddress` never panics; its result has 21 bytes, byte 0 is
the prefix, and bytes 1..20 hold `e` right-aligned: zero bytes then `e` when
`len(e) ≤ 20`, the last 20 bytes of `e` otherwise; the result is always valid. -/
theorem EthAddressToAddress_bytes (e : List Nat) :
    ∃ r, EthAddressToAddress e = some r ∧ r.length = 21 ∧ r[0]? = some TronBytePrefix ∧
      (e.length ≤ 20 →
        (∀ i : Nat, 1 ≤ i → i < 21 - e.length → r[i]? = some 0) ∧
        r.drop (21 - e.length) = e) ∧
      (20 < e.length → r.drop 1 = e.drop (e.length - 20)) ∧
      IsValid r = some true := by
  refine ⟨_, EthAddressToAddress_eq e, ?_, ?_, ?_, ?_, ?_⟩
  · simp [length_rightAlign20]
  · simp
  · intro h20
    constructor
    · intro i h1 hi
      obtain ⟨k, rfl⟩ : ∃ k, i = k + 1 := ⟨i - 1, by omega⟩
      rw [List.getElem?_cons_succ, getElem?_rightAlign20 e k (by omega)]
      have h : ¬ 20 ≤ e.length + k := by omega
      rw [if_neg h]
    · have e1 : 21 - e.length = (20 - e.length) + 1 := by omega
      have e2 : e.length - 20 = 0 := by omega
      rw [e1, List.drop_succ_cons]
      simp [rightAlign20, e2]
  · intro h20
    have e3 : 20 - e.length = 0 := by omega
    simp [rightAlign20, e3]
  · rw [IsValid_cons _ _ (length_rightAlign20 e)]
    simp

/-- C6: when the derivation returns exactly 20 bytes `d` for the key `k`,
`PubkeyToAddress(k)` is the byte `0x41` followed by `d`, has length 21 and is
valid. -/
theorem PubkeyToAddress_valid {K : Type} (derive : K → List Nat) (k : K)
    (h : (derive k).length = 20) :
    PubkeyToAddress derive k = 0x41 :: derive k ∧
    (PubkeyToAddress derive k).length = 21 ∧
    IsValid (PubkeyToAddress derive k) = some true := by
  have e : PubkeyToAddress derive k = TronBytePrefix :: derive k := by
    simp [PubkeyToAddress]
  refine ⟨e, ?_, ?_⟩
  · rw [e]; simp [h]
  · rw [e, IsValid_cons _ _ h]; simp

/-- C6 at a derivation that returns the 20 bytes `1, 2, …, 20`. -/
theorem PubkeyToAddress_valid_witness :
    PubkeyToAddress (fun _ : Unit => List.range' 1 20) () = 0x41 :: List.range' 1 20 ∧
    (PubkeyToAddress (fun _ : Unit => List.range' 1 20) ()).length = 21 ∧
    IsValid (PubkeyToAddress (fun _ : Unit => List.range' 1 20) ()) = some true :=
  PubkeyToAddress_valid (fun _ : Unit => List.range' 1 20) () (by decide)

/-- C7: for `|b| < 2^168`, `BigToAddress(b)` returns the 21-byte big-endian
representation of `|b|`: 21 bytes, read back as `|b|`, the bytes of `b` behind
zero padding.  Byte 0 is the top byte `|b| / 2^160` of that representation, not
a forced prefix, and `b = 0` gives 21 zero bytes. -/
theorem BigToAddress_bytes (b : Int) (h : b.natAbs < 2 ^ 168) :
    ∃ r, BigToAddress b = some r ∧ r.length = 21 ∧ (∀ x ∈ r, x < 256) ∧
      setBytes r = b.natAbs ∧
      r = List.replicate (21 - (bigBytes b).length) 0 ++ bigBytes b ∧
      r[0]? = some (b.natAbs / 2 ^ 160) ∧
      (b = 0 → r = List.replicate 21 0) := by
  have h256 : b.natAbs < 256 ^ 21 := by
    have e : (256 : Nat) ^ 21 = 2 ^ 168 := by norm_num
    omega
  have hl : (bigBytes b).length ≤ 21 := natBytes_length_le _ 21 h256
  have hlen : (List.replicate (21 - (bigBytes b).length) 0 ++ bigBytes b).length = 21 := by
    simp; omega
  have hlt : ∀ x ∈ List.replicate (21 - (bigBytes b).length) 0 ++ bigBytes b, x < 256 := by
    intro x hx
    rcases List.mem_append.mp hx with hx | hx
    · rw [(List.mem_replicate.mp hx).2]; norm_num
    · exact natBytes_lt _ x hx
  have hval : setBytes (List.replicate (21 - (bigBytes b).length) 0 ++ bigBytes b)
      = b.natAbs := by
    rw [setBytes_replicate_zero_append]
    exact setBytes_natBytes _
  refine ⟨_, BigToAddress_eq b h256, hlen, hlt, hval, rfl, ?_, ?_⟩
  · generalize List.replicate (21 - (bigBytes b).length) 0 ++ bigBytes b = r at hlen hlt hval
    cases r with
    | nil => simp at hlen
    | cons x tl =>
      have htl : tl.length = 20 := by simpa using hlen
      have hb := setBytes_lt tl (fun y hy => hlt y (by simp [hy]))
      rw [setBytes_cons, htl] at hval
      rw [htl] at hb
      have e : (2 : Nat) ^ 160 = 256 ^ 20 := by norm_num
      rw [List.getElem?_cons_zero, e, ← hval]
      congr 1
      rw [Nat.add_comm, Nat.add_mul_div_right _ _ (by positivity), Nat.div_eq_of_lt hb]
      simp
  · intro hb
    subst hb
    decide

set_option maxRecDepth 100000 in
/-- C7 at `b = 0x99 · 2^160`, whose byte form is `0x99` followed by 20 zero
bytes: byte 0 of the result is `0x99`. -/
theorem BigToAddress_bytes_witness :
    ∃ r, BigToAddress (0x99 * 2 ^ 160) = some r ∧ r.length = 21 ∧ (∀ x ∈ r, x < 256) ∧
      setBytes r = (0x99 * 2 ^ 160 : Int).natAbs ∧
      r = List.replicate (21 - (bigBytes (0x99 * 2 ^ 160)).length) 0
            ++ bigBytes (0x99 * 2 ^ 160) ∧
      r[0]? = some ((0x99 * 2 ^ 160 : Int).natAbs / 2 ^ 160) ∧
      ((0x99 * 2 ^ 160 : Int) = 0 → r = List.replicate 21 0) :=
  BigToAddress_bytes (0x99 * 2 ^ 160) (by decide)

set_option maxRecDepth 100000 in
/-- C8 fails on the code: `2^168` has the 22-byte form `0x01, 0, …, 0`, the
count `AddressLength - len(id)` is `-1`, and `bytes.Repeat` panics instead of
the result being cropped from the left. -/
theorem BigToAddress_large_panics :
    bigBytes (2 ^ 168) = 1 :: List.replicate 21 0 ∧
    AddressLength - len (bigBytes (2 ^ 168)) = -1 ∧
    BigToAddress (2 ^ 168) = none := by
  decide

/-- C9: `String` never panics and takes one of three branches: the empty
address gives the empty string; a non-empty address with byte 0 equal to zero
gives the decimal rendering of all its bytes read as a big-endian unsigned
integer (byte `i` weighs `256 ^ (len(a) - 1 - i)`), whatever the encoder is,
so `0, 1, 2` gives "258", `0, 1, 0` gives "256" and 21 zero bytes give "0";
any other address gives `EncodeCheck` of its unmodified bytes. -/
theorem AddressString_branches (E : List Nat → String) (a : List Nat) :
    (a.length = 0 → AddressString E a = some "") ∧
    (a.length ≠ 0 → a[0]? = some 0 →
      AddressString E a
        = some (Nat.repr
            (∑ i in Finset.range a.length, a.getD i 0 * 256 ^ (a.length - 1 - i))) ∧
      AddressString E a = some (Nat.repr (Nat.ofDigits 256 a.reverse)) ∧
      ∀ E2 : List Nat → String, AddressString E2 a = AddressString E a) ∧
    (a.length ≠ 0 → a[0]? ≠ some 0 → AddressString E a = some (E a)) ∧
    AddressString E (List.replicate 21 0) = some "0" ∧
    AddressString E [0, 1, 2] = some "258" ∧
    AddressString E [0, 1, 0] = some "256" ∧
    AddressString E [0, 0x41, 0xff, 0x10] = some "4325136" ∧
    AddressString E [1, 2] = some (E [1, 2]) := by
  refine ⟨?_, ?_, ?_, ?_, ?_, ?_, ?_, ?_⟩
  · intro h
    have e : a = [] := List.length_eq_zero.mp h
    subst e
    rfl
  · intro h h0
    cases a with
    | nil => simp at h
    | cons x xs =>
      have hx : x = 0 := by simpa using h0
      refine ⟨?_, ?_, fun E2 => ?_⟩
      · rw [AddressString_cons, if_pos hx, setBytes_eq_sum]
      · rw [AddressString_cons, if_pos hx, setBytes_eq_ofDigits]
      · rw [AddressString_cons, AddressString_cons, if_pos hx, if_pos hx]
  · intro h h0
    cases a with
    | nil => simp at h
    | cons x xs =>
      have hx : x ≠ 0 := by simpa using h0
      rw [AddressString_cons, if_neg hx]
  · rw [List.replicate_succ, AddressString_cons, if_pos rfl]
    decide
  · rw [AddressString_cons, if_pos rfl]
    decide
  · rw [AddressString_cons, if_pos rfl]
    decide
  · rw [AddressString_cons, if_pos rfl]
    decide
  · rw [AddressString_cons, if_neg (by decide)]

/-- C10: for a canonical address `a` (21 bytes, byte 0 equal to `0x41`), when
`DecodeCheck(EncodeCheck(x))` returns `x` and a nil error for every byte
sequence `x`, `a.String()` returns `EncodeCheck(a)` and `Base58ToAddress` of
that string returns `(a, nil)`. -/
theorem Base58ToAddress_String {ε : Type} (E : List Nat → String)
    (D : String → List Nat × Option ε) (a : List Nat)
    (hED : ∀ x : List Nat, (∀ y ∈ x, y < 256) → D (E x) = (x, none))
    (hbytes : ∀ y ∈ a, y < 256) (hlen : a.length = 21) (h0 : a[0]? = some TronBytePrefix) :
    ∃ s, AddressString E a = some s ∧ s = E a ∧ Base58ToAddress D s = (a, none) := by
  cases a with
  | nil => simp at hlen
  | cons x xs =>
    have hx : x = TronBytePrefix := by simpa using h0
    have hne : x ≠ 0 := by rw [hx]; decide
    refine ⟨E (x :: xs), ?_, rfl, ?_⟩
    · rw [AddressString_cons, if_neg hne]
    · simp [Base58ToAddress, hED (x :: xs) hbytes]

/-- C10 at the address `0x41, 1, 2, …, 20`, with the one-character-per-byte
encoder and its decoder. -/
theorem Base58ToAddress_String_witness :
    ∃ s, AddressString charEncode (0x41 :: List.range' 1 20) = some s ∧
      s = charEncode (0x41 :: List.range' 1 20) ∧
      Base58ToAddress charDecode s = (0x41 :: List.range' 1 20, none) :=
  Base58ToAddress_String charEncode charDecode (0x41 :: List.range' 1 20)
    charDecode_charEncode (by decide) (by decide) (by decide)

/-- C11: for a canonical address `a` (21 bytes, byte 0 equal to `0x41`), with
`BytesToHexString` the `0x`-prefixed hexadecimal encoding and `FromHex` its
decoder, `HexToAddress(a.Hex())` is the non-nil slice holding exactly the
bytes of `a`. -/
theorem HexToAddress_Hex (a : List Nat) (hbytes : ∀ y ∈ a, y < 256)
    (_hlen : a.length = 21) (_h0 : a[0]? = some TronBytePrefix) :
    HexToAddress FromHex (Hex BytesToHexString a) = Slice.bytes a ∧
    HexToAddress FromHex (Hex BytesToHexString a) ≠ Slice.nil := by
  have e : HexToAddress FromHex (Hex BytesToHexString a) = Slice.bytes a := by
    simp [HexToAddress, Hex, FromHex_BytesToHexString a hbytes]
  exact ⟨e, by rw [e]; exact fun hn => Slice.noConfusion hn⟩

/-- C11 at the address `0x41, 1, 2, …, 20`. -/
theorem HexToAddress_Hex_witness :
    HexToAddress FromHex (Hex BytesToHexString (0x41 :: List.range' 1 20))
      = Slice.bytes (0x41 :: List.range' 1 20) ∧
    HexToAddress FromHex (Hex BytesToHexString (0x41 :: List.range' 1 20)) ≠ Slice.nil :=
  HexToAddress_Hex (0x41 :: List.range' 1 20) (by decide) (by decide) (by decide)

/-- C12: `Scan(src)` returns a nil error exactly when `src` is a byte buffer of
21 bytes, whatever its first byte; then the receiver holds exactly `src`.  A
buffer of another length is rejected with the length error, a source that is
not a byte buffer with the type error. -/
theorem Scan_result (a : List Nat) (src : Src) :
    ((Scan a src).2 = none ↔ ∃ b, src = Src.buffer b ∧ b.length = 21) ∧
    (∀ b, src = Src.buffer b → b.length = 21 → Scan a src = (b, none)) ∧
    (∀ b, src = Src.buffer b → b.length ≠ 21 →
      (Scan a src).2 = some (ScanError.wrongLength (b.length : Int) 21)) ∧
    (∀ t, src = Src.other t → (Scan a src).2 = some (ScanError.wrongType t)) ∧
    (Scan a (Src.buffer (List.replicate 20 0))).2 = some (ScanError.wrongLength 20 21) ∧
    (Scan a (Src.buffer (List.replicate 22 0))).2 = some (ScanError.wrongLength 22 21) ∧
    Scan a (Src.buffer (List.replicate 21 0)) = (List.replicate 21 0, none) := by
  refine ⟨?_, ?_, ?_, ?_, ?_, ?_, ?_⟩
  · cases src with
    | other t => simp [Scan]
    | buffer b =>
      rw [Scan_buffer]
      by_cases h : b.length = 21 <;> simp [h]
  · intro b hb h
    rw [hb, Scan_buffer, if_pos h]
  · intro b hb h
    rw [hb, Scan_buffer, if_neg h]
  · intro t ht
    rw [ht]
    rfl
  · rw [Scan_buffer]; simp
  · rw [Scan_buffer]; simp
  · rw [Scan_buffer]; simp

/-- C13: `HexToAddress` returns a slice and nothing else.  When `FromHex` fails
the result is the nil address; when `FromHex` succeeds with `d` the result is
`d` unchanged; so, for a decoder whose successful result is not nil, the
result is nil exactly when `FromHex` fails; the hexadecimal decoder is such a
decoder. -/
theorem HexToAddress_result {ε : Type} (fromHex : String → Slice × Option ε) (s : String) :
    (∀ e, (fromHex s).2 = some e → HexToAddress fromHex s = Slice.nil) ∧
    (∀ d, fromHex s = (d, none) → HexToAddress fromHex s = d) ∧
    ((∀ d, fromHex s = (d, none) → d ≠ Slice.nil) →
      (HexToAddress fromHex s = Slice.nil ↔ (fromHex s).2 ≠ none)) ∧
    (HexToAddress FromHex s = Slice.nil ↔ (FromHex s).2 ≠ none) := by
  refine And.intro ?_ (And.intro ?_ (And.intro ?_ ?_))
  case refine_4 =>
    rcases FromHex_cases s with ⟨d, hd⟩ | hn
    · simp [HexToAddress, hd]
    · simp [HexToAddress, hn]
  all_goals rcases hF : fromHex s with ⟨addr, err⟩
  all_goals cases err
  · intro e he
    simp at he
  · intro e _
    simp [HexToAddress, hF]
  · intro d hd
    have : addr = d := by simpa using hd
    simp [HexToAddress, hF, this]
  · intro d hd
    simp at hd
  · intro hnn
    have h1 : addr ≠ Slice.nil := hnn addr rfl
    simp [HexToAddress, hF, h1]
  · intro _
    simp [HexToAddress, hF]

/-- C14 fails on the code: the text `0x0102…16` decodes to the 22 bytes
`1, 2, …, 22`, and `HexToAddress` returns all 22 of them, not the rightmost
21 bytes `2, 3, …, 22`. -/
theorem HexToAddress_no_crop :
    FromHex "0x0102030405060708090a0b0c0d0e0f10111213141516"
      = (Slice.bytes (List.range' 1 22), none) ∧
    HexToAddress FromHex "0x0102030405060708090a0b0c0d0e0f10111213141516"
      = Slice.bytes (List.range' 1 22) ∧
    HexToAddress FromHex "0x0102030405060708090a0b0c0d0e0f10111213141516"
      ≠ Slice.bytes (List.range' 2 21) := by
  decide

/-- C15: `Value` returns the bytes of the address, whatever they are, and a
nil error; after a successful `Scan` of a 21-byte buffer `b` it returns `b`. -/
theorem Value_result {ε : Type} (a : List Nat) :
    (Value a : List Nat × Option ε) = (a, none) ∧
    (∀ b : List Nat, b.length = 21 →
      (Scan a (Src.buffer b)).2 = none ∧
      (Value (Scan a (Src.buffer b)).1 : List Nat × Option ε) = (b, none)) ∧
    (Value [] : List Nat × Option ε) = ([], none) := by
  refine ⟨rfl, ?_, rfl⟩
  intro b hb
  rw [Scan_buffer, if_pos hb]
  exact ⟨rfl, rfl⟩

/-- C16: `Base58ToAddress` returns the nil address and the error of
`DecodeCheck` exactly when `DecodeCheck` fails with that error, and the decoded
bytes with a nil error exactly when `DecodeCheck` succeeds with those bytes;
an error never comes with a non-nil address. -/
theorem Base58ToAddress_result {ε : Type} (D : String → List Nat × Option ε) (s : String) :
    (∀ e, (D s).2 = some e ↔ Base58ToAddress D s = ([], some e)) ∧
    (∀ d, D s = (d, none) ↔ Base58ToAddress D s = (d, none)) ∧
    ((Base58ToAddress D s).2 ≠ none → (Base58ToAddress D s).1 = []) := by
  rcases hD : D s with ⟨addr, err⟩
  cases err with
  | none => simp [Base58ToAddress, hD]
  | some e0 => simp [Base58ToAddress, hD]

/-- C17: `Base64ToAddress` returns the nil address and the decoder's error when
the standard base64 decoder rejects `s`, and otherwise the decoded bytes as
they are, with a nil error: same length, valid only if the decoded bytes are.
The three bytes that "AQID" decodes to come back as three bytes, not a valid
address. -/
theorem Base64ToAddress_result {ε : Type} (D : String → List Nat × Option ε) (s : String) :
    (∀ e, (D s).2 = some e → Base64ToAddress D s = ([], some e)) ∧
    (∀ d, D s = (d, none) →
      Base64ToAddress D s = (d, none) ∧
      (Base64ToAddress D s).1.length = d.length ∧
      IsValid (Base64ToAddress D s).1 = IsValid d) ∧
    Base64ToAddress (fun _ => (([1, 2, 3] : List Nat), (none : Option ε))) "AQID"
      = ([1, 2, 3], none) ∧
    IsValid [1, 2, 3] = some false := by
  refine ⟨?_, ?_, rfl, by decide⟩
  · intro e he
    rcases hD : D s with ⟨addr, err⟩
    rw [hD] at he
    have : err = some e := he
    simp [Base64ToAddress, hD, this]
  · intro d hd
    have e : Base64ToAddress D s = (d, none) := by
      simp [Base64ToAddress, hd]
    rw [e]
    exact ⟨rfl, rfl, rfl⟩

/-- C18: `BytesToAddress` and `EthAddressToAddress` return the same address on
every byte sequence, and both return. -/
theorem BytesToAddress_eq_EthAddressToAddress (x : List Nat) :
    BytesToAddress x = EthAddressToAddress x ∧ ∃ r, BytesToAddress x = some r := by
  rw [BytesToAddress_eq, EthAddressToAddress_eq]
  exact ⟨rfl, _, rfl⟩

/-- C19: `BytesToAddress(a)` returns `a` exactly when `a` is valid; every result
of `BytesToAddress` is valid, so applying it twice gives the same as applying
it once. -/
theorem BytesToAddress_fixed_point (a : List Nat) :
    (BytesToAddress a = some a ↔ IsValid a = some true) ∧
    ∃ r, BytesToAddress a = some r ∧ IsValid r = some true ∧ BytesToAddress r = some r := by
  constructor
  · constructor
    · intro h
      rw [BytesToAddress_eq] at h
      have e : TronBytePrefix :: rightAlign20 a = a := Option.some.inj h
      rw [← e, IsValid_cons _ _ (length_rightAlign20 a)]
      simp
    · intro h
      obtain ⟨xs, rfl, hxs⟩ := IsValid_eq_true a h
      rw [BytesToAddress_eq, rightAlign20_cons _ _ hxs]
  · refine ⟨_, BytesToAddress_eq a, ?_, ?_⟩
    · rw [IsValid_cons _ _ (length_rightAlign20 a)]
      simp
    · rw [BytesToAddress_eq, rightAlign20_cons _ _ (length_rightAlign20 a)]

/-- C20: when `Scan(src)` returns an error, the receiver holds after the call
what it held before. -/
theorem Scan_error_unchanged (a : List Nat) (src : Src) (h : (Scan a src).2 ≠ none) :
    (Scan a src).1 = a := by
  cases src with
  | other t => rfl
  | buffer b =>
    rw [Scan_buffer] at h ⊢
    by_cases hb : b.length = 21
    · simp [hb] at h
    · simp [hb]

/-- C20 at a receiver holding `1, 2, 3` and a buffer of 20 bytes. -/
theorem Scan_error_unchanged_witness :
    (Scan [1, 2, 3] (Src.buffer (List.replicate 20 0))).1 = [1, 2, 3] :=
  Scan_error_unchanged [1, 2, 3] (Src.buffer (List.replicate 20 0)) (by decide)

end Address
